import Mathlib

/-!
# Verification of the `caller` package (go-caller)

A shallow embedding of the `caller` package: the `callerInfo` record, its
accessors, the qualified-name parser `functionNameIndex`, JSON
marshalling/unmarshalling, `Equal`, and the two constructors `New` and
`NewFromPC`.

Go strings are modelled as lists of characters (`GoStr`); every character
the parser inspects (`'.'`, `'/'`, `'\\'`, `':'`) is ASCII, so character
positions coincide with the byte positions used by the Go code.  A `*callerInfo`
pointer is modelled as `Option CallerInfo` (`none` is the nil pointer), and
methods with a nil-receiver guard become functions on `Option CallerInfo`.
The Go runtime's stack-introspection primitives (`runtime.Caller`,
`runtime.FuncForPC`, `Func.FileLine`) are external collaborators and are
modelled as an abstract environment `RuntimeEnv`.
-/

namespace GoCaller

/-- A Go string, as a list of characters (standing for its bytes). -/
abbrev GoStr := List Char

/-- Model of `strings.IndexByte(s, c)`: the index of the first occurrence of `c`
in `s`, or `-1` if `c` is not present. -/
def indexByte (c : Char) (s : GoStr) : Int :=
  match s.findIdx? (fun x => x = c) with
  | some k => (k : Int)
  | none => -1

/-- Model of `strings.LastIndexByte(s, c)`: the index of the last occurrence of `c`
in `s`, or `-1` if `c` is not present.  The last occurrence of `c` in `s`
is the first occurrence in `s.reverse`, at mirrored position. -/
def lastIndexByte (c : Char) (s : GoStr) : Int :=
  match s.reverse.findIdx? (fun x => x = c) with
  | some k => ((s.length - 1 - k : Nat) : Int)
  | none => -1

/-- Embedding of `functionNameIndex` (caller.go): the index of the dot separating the
package path from the function name in a fully qualified function name.
Mirrors the source: take the part after the last `'/'` (the whole string
when there is none) and return the absolute index of the first `'.'` in
that part, or `-1` when there is none. -/
def functionNameIndex (name : GoStr) : Int :=
  if name = [] then -1
  else
    let lastSlash : Int := lastIndexByte '/' name + 1
    let base : GoStr := if lastSlash > 0 then name.drop lastSlash.toNat else name
    let firstDot : Int := indexByte '.' base
    if firstDot ≠ -1 then lastSlash + firstDot else -1

/-- Embedding of `safeUint16` (caller.go): converts an `int` to a `uint16`; `none`
when the value is negative or exceeds `65535` (Go: `(uint16, false)`). -/
def safeUint16 (value : Int) : Option Nat :=
  if value < 0 ∨ value > 65535 then none else some value.toNat

/-- The `callerInfo` struct (caller.go).  `line` is a Go `uint16`,
modelled as a `Nat`; every value the code stores in it lies in
`0 … 65535`. -/
structure CallerInfo where
  file : GoStr
  line : Nat
  fn : GoStr
  dotIdx : Int
deriving DecidableEq, Repr

/-- Embedding of `(*callerInfo).Valid`: the receiver is non-nil and `file` is non-empty. -/
def Valid (c : Option CallerInfo) : Bool :=
  match c with
  | none => false
  | some ci => ci.file ≠ []

/-- Embedding of `(*callerInfo).File`: `""` for a nil receiver. -/
def File (c : Option CallerInfo) : GoStr :=
  match c with
  | none => []
  | some ci => ci.file

/-- Embedding of `(*callerInfo).Line`: `0` for a nil receiver, otherwise `int(c.line)`. -/
def Line (c : Option CallerInfo) : Int :=
  match c with
  | none => 0
  | some ci => (ci.line : Int)

/-- Model of `strconv.Itoa` restricted to the non-negative values the code prints. -/
def itoa (n : Nat) : GoStr := (Nat.repr n).data

/-- Embedding of `(*callerInfo).Location`: `file:line`, just `file` when the line is 0,
`""` for a nil receiver or an empty file. -/
def Location (c : Option CallerInfo) : GoStr :=
  match c with
  | none => []
  | some ci =>
    if ci.file = [] then []
    else if ci.line ≤ 0 then ci.file
    else ci.file ++ ':' :: itoa ci.line

/-- Model of `path/filepath.Base` with the Unix path separator `'/'` (the rules of
the Go standard library: empty path gives `"."`, trailing slashes are
dropped, an all-slash path gives `"/"`, otherwise everything after the
last slash). -/
def filepathBase (path : GoStr) : GoStr :=
  if path = [] then ['.']
  else
    let trimmed : GoStr := (path.reverse.dropWhile (fun x => x = '/')).reverse
    if trimmed = [] then ['/']
    else (trimmed.reverse.takeWhile (fun x => ¬ (x = '/'))).reverse

/-- Embedding of `(*callerInfo).ShortLocation`: like `Location` with the file reduced
to its base name. -/
def ShortLocation (c : Option CallerInfo) : GoStr :=
  match c with
  | none => []
  | some ci =>
    if ci.file = [] then []
    else
      let shortFile := filepathBase ci.file
      if ci.line ≤ 0 then shortFile
      else shortFile ++ ':' :: itoa ci.line

/-- Embedding of `(*callerInfo).Function`: the bare function name `fn[dotIdx+1:]`;
`""` for a nil receiver, an empty `fn`, a sentinel index, or a dot in the
last position. -/
def Function (c : Option CallerInfo) : GoStr :=
  match c with
  | none => []
  | some ci =>
    if ci.fn = [] ∨ ci.dotIdx < 0 ∨ ci.dotIdx ≥ (ci.fn.length : Int) - 1 then []
    else ci.fn.drop (ci.dotIdx + 1).toNat

/-- Embedding of `(*callerInfo).FullFunction`: the raw qualified name; `""` for nil. -/
def FullFunction (c : Option CallerInfo) : GoStr :=
  match c with
  | none => []
  | some ci => ci.fn

/-- Embedding of `(*callerInfo).Package`: the import path `fn[:dotIdx]`; `""` for a nil
receiver, an empty `fn`, or `dotIdx ≤ 0`. -/
def Package (c : Option CallerInfo) : GoStr :=
  match c with
  | none => []
  | some ci =>
    if ci.fn = [] ∨ ci.dotIdx ≤ 0 then []
    else ci.fn.take ci.dotIdx.toNat

/-- Embedding of `(*callerInfo).PackageName`: the base element of `Package`; `""` when
the package is empty (in particular for a nil receiver). -/
def PackageName (c : Option CallerInfo) : GoStr :=
  if Package c = [] then [] else filepathBase (Package c)

/-- A value of the `Caller` interface used as the argument of `Equal`:
either a `*callerInfo` pointer (possibly a typed nil), or any other
implementation, described by the three accessors `Equal` consults
(`File`, `Line`, `FullFunction`).  The interface value itself may be the
untyped nil, modelled by wrapping in `Option`. -/
inductive CallerVal where
  | info (c : Option CallerInfo)
  | other (file : GoStr) (line : Int) (fullFn : GoStr)
deriving DecidableEq

/-- Embedding of `(*callerInfo).Equal`: false when the receiver is nil or the argument
is the untyped nil or a typed nil `*callerInfo`; otherwise compares
`file`, `line` and the full qualified name (ignoring `dotIdx`), going
through the accessors when the argument has another concrete type. -/
def Equal (c : Option CallerInfo) (other : Option CallerVal) : Bool :=
  match c, other with
  | none, _ => false
  | _, none => false
  | some _, some (.info none) => false
  | some ci, some (.info (some oc)) =>
    (ci.file = oc.file : Bool) && (ci.line = oc.line : Bool) && (ci.fn = oc.fn : Bool)
  | some ci, some (.other f l g) =>
    (ci.file = f : Bool) && ((ci.line : Int) = l : Bool) && (ci.fn = g : Bool)

/-- The four-field auxiliary object of the JSON wire format
(`file`, `line`, `function`, `package`).  Omitted keys read back as the
zero value, so the wire format is faithfully represented by the struct
itself. -/
structure JsonAux where
  file : GoStr
  line : Int
  function : GoStr
  pkg : GoStr
deriving DecidableEq, Repr

/-- The JSON output of `MarshalJSON`: the literal `null` or the encoded
auxiliary object. -/
inductive JsonValue where
  | null
  | obj (a : JsonAux)
deriving DecidableEq

/-- The auxiliary object `MarshalJSON` encodes for a non-nil receiver. -/
def marshalAux (ci : CallerInfo) : JsonAux :=
  { file := ci.file
    line := (ci.line : Int)
    function := Function (some ci)
    pkg := Package (some ci) }

/-- Embedding of `(*callerInfo).MarshalJSON`: the literal `null` for a nil receiver,
otherwise the encoded object.  Encoding the auxiliary struct (strings and
an `int`) cannot fail, so the Go error result is always nil and is not
modelled. -/
def MarshalJSON (c : Option CallerInfo) : JsonValue :=
  match c with
  | none => .null
  | some ci => .obj (marshalAux ci)

/-- Embedding of `(*callerInfo).UnmarshalJSON`.  The input is the result of parsing
the JSON bytes: `none` when `json.Unmarshal` fails on them, otherwise the
decoded auxiliary object.  Every success path of the Go method assigns
all four fields of the receiver, so the result is a function of the input
alone. -/
def UnmarshalJSON (data : Option JsonAux) : Except GoStr CallerInfo :=
  match data with
  | none => .error "unmarshal error".data
  | some aux =>
    match safeUint16 aux.line with
    | none => .error "invalid line number".data
    | some line =>
      if aux.function = [] then
        .ok { file := aux.file, line := line, fn := [], dotIdx := -1 }
      else if aux.pkg = [] then
        .ok { file := aux.file, line := line, fn := aux.function, dotIdx := -1 }
      else
        let fn := aux.pkg ++ '.' :: aux.function
        .ok { file := aux.file, line := line, fn := fn, dotIdx := functionNameIndex fn }

/-- One `slog.Attr` of the kinds `LogValue` produces. -/
inductive SlogAttr where
  | str (key : GoStr) (value : GoStr)
  | int (key : GoStr) (value : Int)
deriving DecidableEq

/-- A `slog.Value` of the shapes `LogValue` produces: the zero value
`slog.Value{}` or a group of attributes. -/
inductive SlogValue where
  | empty
  | group (attrs : List SlogAttr)
deriving DecidableEq

/-- Embedding of `(*callerInfo).LogValue`: the empty `slog.Value` for an invalid or
nil caller, otherwise the group of the available attributes (`line` only
inside the `file` branch, as in the source). -/
def LogValue (c : Option CallerInfo) : SlogValue :=
  if Valid c = false then .empty
  else
    let a1 : List SlogAttr :=
      if File c ≠ [] then
        .str "file".data (File c) ::
          (if Line c > 0 then [.int "line".data (Line c)] else [])
      else []
    let a2 : List SlogAttr :=
      if Function c ≠ [] then [.str "function".data (Function c)] else []
    let a3 : List SlogAttr :=
      if Package c ≠ [] then [.str "package".data (Package c)] else []
    .group (a1 ++ a2 ++ a3)

/-- Embedding of `(*callerInfo).String`: delegates to `ShortLocation`. -/
def String (c : Option CallerInfo) : GoStr :=
  ShortLocation c

/-- One frame as reported by `runtime.Caller`: program counter, file and
line. -/
structure Frame where
  pc : Nat
  file : GoStr
  line : Int

/-- The Go runtime's stack-introspection primitives, which the spec
treats as an external black box: `caller depth` models
`runtime.Caller(depth)` (with the ok-flag as `Option`), `funcName pc`
models `runtime.FuncForPC(pc)` followed by `Name()` (`none` when the
`*runtime.Func` is nil), and `fileLine pc` models `f.FileLine(pc)`. -/
structure RuntimeEnv where
  caller : Nat → Option Frame
  funcName : Nat → Option GoStr
  fileLine : Nat → GoStr × Int

/-- Embedding of `skipAdjust` (caller.go). -/
def skipAdjust : Nat := 2

/-- Embedding of `New` (caller.go): nil for a negative skip or a failed stack walk;
otherwise the record built from the reported frame, with the line coerced
to 0 when out of the `uint16` range and `dotIdx` computed by
`functionNameIndex`. -/
def New (env : RuntimeEnv) (skip : Int) : Option CallerInfo :=
  if skip < 0 then none
  else
    match env.caller (skip.toNat + skipAdjust) with
    | none => none
    | some fr =>
      let fullFunc : GoStr := (env.funcName fr.pc).getD []
      let lineUint : Nat := (safeUint16 fr.line).getD 0
      some { file := fr.file, line := lineUint, fn := fullFunc,
             dotIdx := functionNameIndex fullFunc }

/-- Embedding of `Immediate` (caller.go): `New 0`. -/
def Immediate (env : RuntimeEnv) : Option CallerInfo :=
  New env 0

/-- Embedding of `NewFromPC` (caller.go): nil when the runtime resolves the pc to no
function; otherwise the record built from `Name()` and `FileLine(pc)`,
with the same line coercion and `dotIdx` computation as `New`. -/
def NewFromPC (env : RuntimeEnv) (pc : Nat) : Option CallerInfo :=
  match env.funcName pc with
  | none => none
  | some fullFunc =>
    let fl := env.fileLine pc
    let lineUint : Nat := (safeUint16 fl.2).getD 0
    some { file := fl.1, line := lineUint, fn := fullFunc,
           dotIdx := functionNameIndex fullFunc }

/-- Modelled from the spec (§4.2, claim C1): "letting `base` be the
substring after the last `'/'` (or the whole string if there is no
`'/'`)".  Computed independently of the source's `lastIndexByte` loop:
the maximal `'/'`-free suffix. -/
def specBase (s : GoStr) : GoStr :=
  (s.reverse.takeWhile (fun x => ¬ (x = '/'))).reverse

/-- Modelled from the spec (§4.2): `baseOffset`, the index in the
original string at which `specBase` starts. -/
def specBaseOffset (s : GoStr) : Nat :=
  s.length - (specBase s).length

end GoCaller

namespace GoCaller

/-- A concrete runtime environment used to instantiate theorems about
`New` and `NewFromPC`: every stack walk reports line 70000 (out of the
`uint16` range) and pc 7, and the runtime resolves every non-zero pc to
the qualified name `pkg.Fn`. -/
def envEx : RuntimeEnv :=
  { caller := fun _ => some ⟨7, "file.go".data, 70000⟩
    funcName := fun pc => if pc = 0 then none else some "pkg.Fn".data
    fileLine := fun _ => ("file.go".data, 70000) }

theorem takeWhile_not_length_eq {α} {p : α → Bool} :
    ∀ {l : List α} {k : Nat}, l.findIdx? p = some k →
      (l.takeWhile (fun x => !p x)).length = k := by
  intro l
  induction l with
  | nil => intro k h; simp at h
  | cons a t ih =>
    intro k h
    rw [List.findIdx?_cons] at h
    by_cases hpa : p a
    · rw [if_pos hpa] at h
      injection h with h
      subst h
      simp [List.takeWhile_cons, hpa]
    · rw [if_neg hpa] at h
      rw [List.findIdx?_start_succ] at h
      simp only [Option.map_eq_some'] at h
      obtain ⟨k', hk', rfl⟩ := h
      simp [List.takeWhile_cons, hpa, ih hk']

theorem takeWhile_not_eq_self {α} {p : α → Bool} :
    ∀ {l : List α}, l.findIdx? p = none → l.takeWhile (fun x => !p x) = l := by
  intro l
  induction l with
  | nil => intro _; rfl
  | cons a t ih =>
    intro h
    rw [List.findIdx?_cons] at h
    by_cases hpa : p a
    · rw [if_pos hpa] at h; exact absurd h (by simp)
    · rw [if_neg hpa, List.findIdx?_start_succ] at h
      simp only [Option.map_eq_none'] at h
      simp [List.takeWhile_cons, hpa, ih h]

theorem char_not_eq_pred (c : Char) :
    (fun x : Char => (¬ (x = c) : Bool)) = (fun x : Char => !(x = c : Bool)) := by
  funext x
  simp [decide_not]

theorem findIdx?_reverse_none {c : Char} {s : GoStr} (h : c ∉ s) :
    s.reverse.findIdx? (fun x => x = c) = none := by
  rw [List.findIdx?_eq_none_iff]
  intro x hx
  rw [List.mem_reverse] at hx
  simp only [decide_eq_false_iff_not]
  intro hxc
  exact h (hxc ▸ hx)

theorem specBase_decomp (s : GoStr) :
    (s.reverse.dropWhile (fun x => ¬ (x = '/'))).reverse ++ specBase s = s := by
  unfold specBase
  rw [← List.reverse_append, List.takeWhile_append_dropWhile, List.reverse_reverse]

theorem drop_sub_length_of_append {α} {A B s : List α} (h : A ++ B = s) :
    s.drop (s.length - B.length) = B := by
  subst h
  rw [List.length_append, Nat.add_sub_cancel, List.drop_left]

theorem drop_specBaseOffset (s : GoStr) : s.drop (specBaseOffset s) = specBase s :=
  drop_sub_length_of_append (specBase_decomp s)

theorem specBaseOffset_eq_dropWhile_length (s : GoStr) :
    specBaseOffset s = (s.reverse.dropWhile (fun x => ¬ (x = '/'))).reverse.length := by
  unfold specBaseOffset
  have h := congrArg List.length (specBase_decomp s)
  rw [List.length_append] at h
  omega

theorem lastSlash_plus_one (s : GoStr) :
    lastIndexByte '/' s + 1 = (specBaseOffset s : Int) := by
  unfold lastIndexByte
  cases h : s.reverse.findIdx? (fun x => x = '/') with
  | none =>
    dsimp only
    have hbase : specBase s = s := by
      unfold specBase
      rw [char_not_eq_pred, takeWhile_not_eq_self h, List.reverse_reverse]
    unfold specBaseOffset
    rw [hbase]
    simp
  | some k =>
    dsimp only
    have hk : k < s.length := by
      have := List.findIdx?_eq_some_iff_getElem.mp h
      obtain ⟨hlt, -⟩ := this
      simpa using hlt
    have hlen : (specBase s).length = k := by
      unfold specBase
      rw [List.length_reverse, char_not_eq_pred]
      exact takeWhile_not_length_eq h
    unfold specBaseOffset
    rw [hlen]
    omega

theorem not_slash_of_mem_specBase {x : Char} {s : GoStr} (h : x ∈ specBase s) :
    ¬ (x = '/') := by
  unfold specBase at h
  rw [List.mem_reverse] at h
  have hx := List.all_eq_true.mp List.all_takeWhile x h
  simpa using hx

theorem base_branch_eq (s : GoStr) :
    (if lastIndexByte '/' s + 1 > 0 then s.drop (lastIndexByte '/' s + 1).toNat else s)
      = specBase s := by
  rw [lastSlash_plus_one]
  by_cases h0 : specBaseOffset s = 0
  · rw [h0]
    simp
    have hd := drop_specBaseOffset s
    rw [h0] at hd
    simpa using hd
  · rw [if_pos (by omega : ((specBaseOffset s : Int) > 0))]
    rw [Int.toNat_ofNat]
    exact drop_specBaseOffset s

theorem functionNameIndex_eq (s : GoStr) (hs : s ≠ []) :
    functionNameIndex s =
      (if indexByte '.' (specBase s) ≠ -1
       then (specBaseOffset s : Int) + indexByte '.' (specBase s)
       else -1) := by
  unfold functionNameIndex
  rw [if_neg hs]
  dsimp only
  rw [base_branch_eq, lastSlash_plus_one]

theorem indexByte_eq_findIdx {c : Char} {s : GoStr} (h : c ∈ s) :
    indexByte c s = (s.findIdx (fun x => x = c) : Int) := by
  unfold indexByte
  rw [List.findIdx?_eq_some_of_exists ⟨c, h, by simp⟩]

theorem indexByte_eq_neg_one {c : Char} {s : GoStr} (h : c ∉ s) :
    indexByte c s = -1 := by
  unfold indexByte
  rw [List.findIdx?_eq_none_iff.mpr]
  intro x hx
  simp only [decide_eq_false_iff_not]
  intro hxc
  exact h (hxc ▸ hx)

theorem specBase_eq_self_of_not_mem {s : GoStr} (h : '/' ∉ s) : specBase s = s := by
  unfold specBase
  rw [char_not_eq_pred, takeWhile_not_eq_self (findIdx?_reverse_none h), List.reverse_reverse]

theorem lastIndexByte_eq_neg_one {c : Char} {s : GoStr} (h : c ∉ s) :
    lastIndexByte c s = -1 := by
  unfold lastIndexByte
  rw [findIdx?_reverse_none h]

theorem getElem?_of_append {α} {A B s : List α} (h : A ++ B = s) (i : Nat) :
    s[A.length + i]? = B[i]? := by
  subst h
  rw [List.getElem?_append_right (Nat.le_add_right _ _), Nat.add_sub_cancel_left]

theorem functionNameIndex_points {s : GoStr} {k : Nat}
    (h : functionNameIndex s = (k : Int)) :
    s[k]? = some '.' ∧ ∀ j, k < j → s[j]? ≠ some '/' := by
  have hs : s ≠ [] := by
    intro he
    subst he
    have hcon : (-1 : Int) = (k : Int) := h
    omega
  rw [functionNameIndex_eq s hs] at h
  by_cases hdot : '.' ∈ specBase s
  · rw [indexByte_eq_findIdx hdot,
      if_pos (by omega : ((specBase s).findIdx (fun x => x = '.') : Int) ≠ -1)] at h
    set p := (specBase s).findIdx (fun x => x = '.') with hp_def
    have hk : k = specBaseOffset s + p := by omega
    have hp : p < (specBase s).length :=
      List.findIdx_lt_length_of_exists ⟨'.', hdot, by simp⟩
    have hdec := specBase_decomp s
    have hAlen : (s.reverse.dropWhile (fun x => ¬ (x = '/'))).reverse.length
        = specBaseOffset s := (specBaseOffset_eq_dropWhile_length s).symm
    have hslen : specBaseOffset s + (specBase s).length = s.length := by
      have hlen := congrArg List.length hdec
      rw [List.length_append, hAlen] at hlen
      exact hlen
    constructor
    · rw [hk, ← hAlen, getElem?_of_append hdec p, List.getElem?_eq_getElem hp]
      have hval := @List.findIdx_getElem _ _ _ hp
      simp only [decide_eq_true_eq] at hval
      rw [hval]
    · intro j hj
      by_cases hjlen : j < s.length
      · have hjoff : specBaseOffset s ≤ j := by omega
        have hgoal : s[j]? = (specBase s)[j - specBaseOffset s]? := by
          have h2 := getElem?_of_append hdec (j - specBaseOffset s)
          rw [hAlen] at h2
          rw [← h2]
          congr 1
          omega
        rw [hgoal]
        have hjb : j - specBaseOffset s < (specBase s).length := by omega
        rw [List.getElem?_eq_getElem hjb]
        intro hcontra
        injection hcontra with hcontra
        exact not_slash_of_mem_specBase (List.getElem_mem hjb) hcontra
      · rw [List.getElem?_eq_none (by omega)]
        simp
  · rw [indexByte_eq_neg_one hdot] at h
    simp at h

/-- C1: `functionNameIndex` returns `-1` on the empty string; otherwise,
letting `base` be the substring after the last `'/'` (`specBase`, the
whole string when there is no `'/'`), it returns the absolute index in
the original string of the first `'.'` within `base`, and `-1` when
`base` contains no dot.  In particular, for a name without `'/'` that
contains a dot, the result is the index of its first dot. -/
theorem functionNameIndex_matches_spec :
    functionNameIndex [] = -1
    ∧ (∀ s : GoStr, s ≠ [] → '.' ∈ specBase s →
        functionNameIndex s =
          (specBaseOffset s : Int) + ((specBase s).findIdx (fun x => x = '.') : Int))
    ∧ (∀ s : GoStr, s ≠ [] → '.' ∉ specBase s → functionNameIndex s = -1)
    ∧ (∀ s : GoStr, '/' ∉ s → '.' ∈ s →
        functionNameIndex s = (s.findIdx (fun x => x = '.') : Int)) := by
  have main : ∀ s : GoStr, s ≠ [] → '.' ∈ specBase s →
      functionNameIndex s =
        (specBaseOffset s : Int) + ((specBase s).findIdx (fun x => x = '.') : Int) := by
    intro s hs hdot
    rw [functionNameIndex_eq s hs, indexByte_eq_findIdx hdot]
    rw [if_pos (by omega : ((specBase s).findIdx (fun x => x = '.') : Int) ≠ -1)]
  refine ⟨rfl, main, ?_, ?_⟩
  · intro s hs hdot
    rw [functionNameIndex_eq s hs, indexByte_eq_neg_one hdot]
    simp
  · intro s hslash hdot
    have hs : s ≠ [] := by
      intro h
      subst h
      exact absurd hdot (by simp)
    have hbase := specBase_eq_self_of_not_mem hslash
    have hoff : specBaseOffset s = 0 := by
      unfold specBaseOffset
      rw [hbase]
      omega
    have hmain := main s hs (by rw [hbase]; exact hdot)
    rw [hoff, hbase] at hmain
    simpa using hmain

/-- Witness for C1 at two concrete qualified names. -/
theorem functionNameIndex_matches_spec_witness :
    functionNameIndex "github.com/user/package.FunctionName".data
      = (specBaseOffset "github.com/user/package.FunctionName".data : Int)
        + ((specBase "github.com/user/package.FunctionName".data).findIdx
            (fun x => x = '.') : Int)
    ∧ functionNameIndex "pkg.FunctionName".data
      = ("pkg.FunctionName".data.findIdx (fun x => x = '.') : Int) :=
  ⟨functionNameIndex_matches_spec.2.1 _ (by decide) (by decide),
   functionNameIndex_matches_spec.2.2.2 _ (by decide) (by decide)⟩

end GoCaller

namespace GoCaller

/-- C2 counterexample: rehydrating `{"file":"f.go","line":1,"function":"a.b"}`
(empty package, a dot inside the bare function name) stores
`dotIdx = -1`, but `functionNameIndex` of the stored qualified name
`"a.b"` is `1`, so the claimed invariant `dotIdx = functionNameIndex fn`
fails on a record produced by `UnmarshalJSON`. -/
theorem dotIdx_invariant_counterexample :
    UnmarshalJSON (some ⟨"f.go".data, 1, "a.b".data, []⟩) =
      .ok ⟨"f.go".data, 1, "a.b".data, -1⟩
    ∧ functionNameIndex "a.b".data = 1
    ∧ (-1 : Int) ≠ 1 :=
  ⟨rfl, rfl, by decide⟩

/-- C2 (amended): records built by `New` and `NewFromPC` always satisfy
`dotIdx = functionNameIndex fn`; records rehydrated by `UnmarshalJSON`
satisfy it when the `function` field is empty or the `package` field is
non-empty, while an empty `package` always yields the sentinel
`dotIdx = -1` (even when the function name contains a dot).  Whenever
`dotIdx` is non-sentinel, it points at a `'.'` that lies after the last
`'/'` of the qualified name. -/
theorem dotIdx_invariant_amended :
    (∀ (env : RuntimeEnv) (skip : Int) (c : CallerInfo),
        New env skip = some c → c.dotIdx = functionNameIndex c.fn)
    ∧ (∀ (env : RuntimeEnv) (pc : Nat) (c : CallerInfo),
        NewFromPC env pc = some c → c.dotIdx = functionNameIndex c.fn)
    ∧ (∀ (a : JsonAux) (c : CallerInfo), UnmarshalJSON (some a) = .ok c →
        a.function = [] ∨ a.pkg ≠ [] → c.dotIdx = functionNameIndex c.fn)
    ∧ (∀ (a : JsonAux) (c : CallerInfo), UnmarshalJSON (some a) = .ok c →
        a.pkg = [] → c.dotIdx = -1)
    ∧ (∀ (s : GoStr) (k : Nat), functionNameIndex s = (k : Int) →
        s[k]? = some '.' ∧ ∀ j, k < j → s[j]? ≠ some '/') := by
  refine ⟨?_, ?_, ?_, ?_, fun s k h => functionNameIndex_points h⟩
  · intro env skip c h
    unfold New at h
    split_ifs at h
    cases hcall : env.caller (skip.toNat + skipAdjust) with
    | none => rw [hcall] at h; cases h
    | some fr =>
      rw [hcall] at h
      dsimp only at h
      injection h with h
      subst h
      rfl
  · intro env pc c h
    unfold NewFromPC at h
    cases hfn : env.funcName pc with
    | none => rw [hfn] at h; cases h
    | some nm =>
      rw [hfn] at h
      dsimp only at h
      injection h with h
      subst h
      rfl
  · intro a c h hcase
    unfold UnmarshalJSON at h
    dsimp only at h
    cases hsafe : safeUint16 a.line with
    | none => rw [hsafe] at h; cases h
    | some ln =>
      rw [hsafe] at h
      dsimp only at h
      by_cases h1 : a.function = []
      · rw [if_pos h1] at h
        injection h with h
        subst h
        rfl
      · have h2 : a.pkg ≠ [] := by
          rcases hcase with hc | hc
          · exact absurd hc h1
          · exact hc
        rw [if_neg h1, if_neg h2] at h
        injection h with h
        subst h
        rfl
  · intro a c h hpkg
    unfold UnmarshalJSON at h
    dsimp only at h
    cases hsafe : safeUint16 a.line with
    | none => rw [hsafe] at h; cases h
    | some ln =>
      rw [hsafe] at h
      dsimp only at h
      by_cases h1 : a.function = []
      · rw [if_pos h1] at h
        injection h with h
        subst h
        rfl
      · rw [if_neg h1, if_pos hpkg] at h
        injection h with h
        subst h
        rfl

/-- Witness for the amended C2: a record captured through `New` satisfies
the invariant, and the non-sentinel index of `"pkg.Fn"` points at its
dot, with no slash after it. -/
theorem dotIdx_invariant_amended_witness :
    (⟨"file.go".data, 0, "pkg.Fn".data, 3⟩ : CallerInfo).dotIdx
      = functionNameIndex (⟨"file.go".data, 0, "pkg.Fn".data, 3⟩ : CallerInfo).fn
    ∧ ("pkg.Fn".data[3]? = some '.' ∧ ∀ j, 3 < j → "pkg.Fn".data[j]? ≠ some '/') :=
  ⟨dotIdx_invariant_amended.1 envEx 0 _ rfl,
   dotIdx_invariant_amended.2.2.2.2 "pkg.Fn".data 3 rfl⟩

end GoCaller

namespace GoCaller

/-- C3: `New` returns the absent value for every negative skip, and
`NewFromPC 0` returns the absent value whenever the runtime resolves
pc 0 to no function (which the Go runtime does for the zero pc). -/
theorem new_invalid_inputs_yield_none :
    (∀ (env : RuntimeEnv) (skip : Int), skip < 0 → New env skip = none)
    ∧ (∀ env : RuntimeEnv, env.funcName 0 = none → NewFromPC env 0 = none) := by
  constructor
  · intro env skip h
    unfold New
    rw [if_pos h]
  · intro env h
    unfold NewFromPC
    rw [h]

/-- Witness for C3: skip `-1` and pc `0` in the concrete environment. -/
theorem new_invalid_inputs_yield_none_witness :
    New envEx (-1) = none ∧ NewFromPC envEx 0 = none :=
  ⟨new_invalid_inputs_yield_none.1 envEx (-1) (by decide),
   new_invalid_inputs_yield_none.2 envEx rfl⟩

/-- C4: `Valid` holds exactly for a present record with a non-empty
`file`; no line number or function name is required. -/
theorem valid_iff_file_nonempty :
    (∀ c : Option CallerInfo, Valid c = true ↔ ∃ ci, c = some ci ∧ ci.file ≠ [])
    ∧ (∀ (f : GoStr) (l : Nat) (fn : GoStr) (d : Int),
        f ≠ [] → Valid (some ⟨f, l, fn, d⟩) = true) := by
  constructor
  · intro c
    cases c with
    | none => simp [Valid]
    | some ci => simp [Valid]
  · intro f l fn d hf
    simp [Valid, hf]

/-- Witness for C4: a record with only a file (line 0, no function) is
valid. -/
theorem valid_iff_file_nonempty_witness :
    Valid (some ⟨"main.go".data, 0, [], -1⟩) = true :=
  valid_iff_file_nonempty.2 "main.go".data 0 [] (-1) (by decide)

/-- C5: on the capture path, a runtime-reported line outside `0 … 65535`
is stored as 0 in the returned record; `New` and `NewFromPC` still
return a present record (they never fail because of the line, and never
store the value reduced modulo 2^16). -/
theorem capture_line_out_of_range_coerced :
    (∀ (env : RuntimeEnv) (skip : Int) (fr : Frame), 0 ≤ skip →
        env.caller (skip.toNat + skipAdjust) = some fr →
        (fr.line < 0 ∨ 65535 < fr.line) →
        New env skip =
          some { file := fr.file
                 line := 0
                 fn := (env.funcName fr.pc).getD []
                 dotIdx := functionNameIndex ((env.funcName fr.pc).getD []) })
    ∧ (∀ (env : RuntimeEnv) (pc : Nat) (nm : GoStr),
        env.funcName pc = some nm →
        ((env.fileLine pc).2 < 0 ∨ 65535 < (env.fileLine pc).2) →
        NewFromPC env pc =
          some { file := (env.fileLine pc).1
                 line := 0
                 fn := nm
                 dotIdx := functionNameIndex nm }) := by
  constructor
  · intro env skip fr hskip hcall hline
    unfold New
    rw [if_neg (by omega : ¬ skip < 0), hcall]
    dsimp only
    have hsafe : safeUint16 fr.line = none := by
      unfold safeUint16
      rw [if_pos (by omega)]
    rw [hsafe]
    rfl
  · intro env pc nm hfn hline
    unfold NewFromPC
    rw [hfn]
    dsimp only
    have hsafe : safeUint16 (env.fileLine pc).2 = none := by
      unfold safeUint16
      rw [if_pos (by omega)]
    rw [hsafe]
    rfl

/-- Witness for C5: in the concrete environment every frame reports
line 70000, and both constructors yield a record with line 0. -/
theorem capture_line_out_of_range_coerced_witness :
    New envEx 0 =
      some { file := "file.go".data
             line := 0
             fn := "pkg.Fn".data
             dotIdx := functionNameIndex "pkg.Fn".data }
    ∧ NewFromPC envEx 7 =
      some { file := "file.go".data
             line := 0
             fn := "pkg.Fn".data
             dotIdx := functionNameIndex "pkg.Fn".data } :=
  ⟨by
    rw [capture_line_out_of_range_coerced.1 envEx 0 ⟨7, "file.go".data, 70000⟩
      (by decide) rfl (by decide)]
    rfl,
   by
    rw [capture_line_out_of_range_coerced.2 envEx 7 "pkg.Fn".data rfl (by decide)]
    rfl⟩

end GoCaller

namespace GoCaller

/-- C6 counterexample: in `"a.b\pkg.Func"` the dot at index 1 lies inside
the backslash-delimited directory component `"a.b"` (a backslash occurs
after it), yet `functionNameIndex` returns exactly that index, not 7 (the
dot after the last separator of either style), and `Function` accordingly
returns `"b\pkg.Func"` instead of `"Func"`. -/
theorem backslash_separator_counterexample :
    functionNameIndex "a.b\\pkg.Func".data = 1
    ∧ "a.b\\pkg.Func".data[1]? = some '.'
    ∧ "a.b\\pkg.Func".data[3]? = some '\\'
    ∧ Function (some ⟨[], 0, "a.b\\pkg.Func".data,
        functionNameIndex "a.b\\pkg.Func".data⟩) = "b\\pkg.Func".data
    ∧ functionNameIndex "a.b\\pkg.Func".data ≠ 7 := by
  refine ⟨rfl, rfl, rfl, rfl, by decide⟩

/-- C6 (amended): `functionNameIndex` determines the base segment from
the last `'/'` only; a backslash is not treated as a directory separator
(for a name without `'/'` the base is the whole string, backslashes or
not).  The repository's Windows-style test names contain no dot before
their last backslash, so `Function` and `Package` still split them right
after the last backslash. -/
theorem backslash_not_separator_amended :
    (∀ s : GoStr, '/' ∉ s → functionNameIndex s = indexByte '.' s)
    ∧ Function (some ⟨[], 0, "C:\\user\\package.FunctionName".data,
        functionNameIndex "C:\\user\\package.FunctionName".data⟩)
        = "FunctionName".data
    ∧ Package (some ⟨[], 0, "C:\\user\\package.FunctionName".data,
        functionNameIndex "C:\\user\\package.FunctionName".data⟩)
        = "C:\\user\\package".data
    ∧ Function (some ⟨[], 0, "C:\\user\\package.(*Type).MethodName".data,
        functionNameIndex "C:\\user\\package.(*Type).MethodName".data⟩)
        = "(*Type).MethodName".data
    ∧ Package (some ⟨[], 0, "C:\\user\\package.(*Type).MethodName".data,
        functionNameIndex "C:\\user\\package.(*Type).MethodName".data⟩)
        = "C:\\user\\package".data := by
  refine ⟨?_, by decide, by decide, by decide, by decide⟩
  intro s h
  by_cases hs : s = []
  · subst hs
    rfl
  · unfold functionNameIndex
    rw [if_neg hs]
    dsimp only
    rw [lastIndexByte_eq_neg_one h]
    norm_num
    intro hd
    exact hd.symm

/-- Witness for the amended C6 at a backslash-only Windows-style name. -/
theorem backslash_not_separator_amended_witness :
    functionNameIndex "C:\\user\\package.FunctionName".data
      = indexByte '.' "C:\\user\\package.FunctionName".data :=
  backslash_not_separator_amended.1 "C:\\user\\package.FunctionName".data (by decide)

/-- C7: `UnmarshalJSON` reconstructs the qualified name as
`package + "." + function` when both are non-empty, as `function` alone
when the package is empty, and as the empty string when the function is
empty; it fails exactly on unparsable input or a line outside
`0 … 65535` (65535 itself is accepted). -/
theorem unmarshal_fn_and_error_cases :
    (∀ a : JsonAux, 0 ≤ a.line → a.line ≤ 65535 →
        ∃ c : CallerInfo, UnmarshalJSON (some a) = .ok c
          ∧ c.file = a.file ∧ (c.line : Int) = a.line
          ∧ c.fn = (if a.function = [] then []
                    else if a.pkg = [] then a.function
                    else a.pkg ++ '.' :: a.function))
    ∧ (∀ x : Option JsonAux,
        (∃ e, UnmarshalJSON x = .error e) ↔
          (x = none ∨ ∃ a, x = some a ∧ (a.line < 0 ∨ 65535 < a.line))) := by
  have hsafe_ok : ∀ v : Int, 0 ≤ v → v ≤ 65535 → safeUint16 v = some v.toNat := by
    intro v h0 h1
    unfold safeUint16
    rw [if_neg (by omega)]
  constructor
  · intro a h0 h1
    unfold UnmarshalJSON
    dsimp only
    rw [hsafe_ok a.line h0 h1]
    dsimp only
    by_cases hf : a.function = []
    · rw [if_pos hf]
      exact ⟨_, rfl, rfl, by simp [Int.toNat_of_nonneg h0], by rw [if_pos hf]⟩
    · rw [if_neg hf]
      by_cases hp : a.pkg = []
      · rw [if_pos hp]
        exact ⟨_, rfl, rfl, by simp [Int.toNat_of_nonneg h0], by rw [if_neg hf, if_pos hp]⟩
      · rw [if_neg hp]
        exact ⟨_, rfl, rfl, by simp [Int.toNat_of_nonneg h0], by rw [if_neg hf, if_neg hp]⟩
  · intro x
    constructor
    · rintro ⟨e, he⟩
      cases x with
      | none => exact Or.inl rfl
      | some a =>
        refine Or.inr ⟨a, rfl, ?_⟩
        by_contra hcon
        push_neg at hcon
        obtain ⟨h0, h1⟩ := hcon
        unfold UnmarshalJSON at he
        dsimp only at he
        rw [hsafe_ok a.line (by omega) (by omega)] at he
        dsimp only at he
        split_ifs at he
    · rintro (rfl | ⟨a, rfl, hline⟩)
      · exact ⟨_, rfl⟩
      · refine ⟨"invalid line number".data, ?_⟩
        unfold UnmarshalJSON
        dsimp only
        have hsafe : safeUint16 a.line = none := by
          unfold safeUint16
          rw [if_pos (by omega)]
        rw [hsafe]

/-- Witness for C7: the boundary line 65535 is accepted and 65536 is
rejected. -/
theorem unmarshal_fn_and_error_cases_witness :
    (∃ c : CallerInfo,
        UnmarshalJSON (some ⟨"f.go".data, 65535, "Fn".data, "p".data⟩) = .ok c
        ∧ c.file = "f.go".data ∧ (c.line : Int) = 65535
        ∧ c.fn = (if ("Fn".data : GoStr) = [] then []
                  else if ("p".data : GoStr) = [] then "Fn".data
                  else "p".data ++ '.' :: "Fn".data))
    ∧ (∃ e, UnmarshalJSON (some ⟨"f.go".data, 65536, [], []⟩) = .error e) :=
  ⟨unmarshal_fn_and_error_cases.1 ⟨"f.go".data, 65535, "Fn".data, "p".data⟩
      (by decide) (by decide),
   (unmarshal_fn_and_error_cases.2 (some ⟨"f.go".data, 65536, [], []⟩)).mpr
     (Or.inr ⟨_, rfl, Or.inr (by decide)⟩)⟩

end GoCaller

namespace GoCaller

/-- C8: serializing a valid record and deserializing the result succeeds
and preserves `file` and `line`; the reconstructed qualified name is
`Package ++ "." ++ Function` when both are non-empty, `Function` alone
when the package is empty, and empty when the function is empty.  The
hypothesis `r.line ≤ 65535` is the `uint16` representation invariant of
the Go field. -/
theorem marshal_roundtrip :
    ∀ (r : CallerInfo) (a : JsonAux), r.file ≠ [] → r.line ≤ 65535 →
      MarshalJSON (some r) = .obj a →
      ∃ q : CallerInfo, UnmarshalJSON (some a) = .ok q
        ∧ q.file = r.file ∧ q.line = r.line
        ∧ (Function (some r) ≠ [] → Package (some r) ≠ [] →
            q.fn = Package (some r) ++ '.' :: Function (some r))
        ∧ (Package (some r) = [] → q.fn = Function (some r))
        ∧ (Function (some r) = [] → q.fn = []) := by
  intro r a hfile hline hm
  have ha : a = marshalAux r := by
    unfold MarshalJSON at hm
    dsimp only at hm
    injection hm with hm
    exact hm.symm
  subst ha
  unfold UnmarshalJSON
  dsimp only
  have hsafe : safeUint16 (marshalAux r).line = some r.line := by
    unfold safeUint16 marshalAux
    dsimp only
    rw [if_neg (by omega)]
    simp
  rw [hsafe]
  dsimp only
  by_cases hf : Function (some r) = []
  · rw [if_pos (show (marshalAux r).function = [] from hf)]
    refine ⟨_, rfl, rfl, rfl, ?_, ?_, ?_⟩
    · intro hcon _
      exact absurd hf hcon
    · intro _
      exact hf.symm
    · intro _
      rfl
  · rw [if_neg (show ¬ (marshalAux r).function = [] from hf)]
    by_cases hp : Package (some r) = []
    · rw [if_pos (show (marshalAux r).pkg = [] from hp)]
      refine ⟨_, rfl, rfl, rfl, ?_, ?_, ?_⟩
      · intro _ hcon
        exact absurd hp hcon
      · intro _
        rfl
      · intro hcon
        exact absurd hcon hf
    · rw [if_neg (show ¬ (marshalAux r).pkg = [] from hp)]
      refine ⟨_, rfl, rfl, rfl, ?_, ?_, ?_⟩
      · intro _ _
        rfl
      · intro hcon
        exact absurd hcon hp
      · intro hcon
        exact absurd hcon hf

/-- Witness for C8: round trip of a concrete record with package
`"pkg"` and function `"Fn"`. -/
theorem marshal_roundtrip_witness :
    ∃ q : CallerInfo,
      UnmarshalJSON (some (marshalAux ⟨"main.go".data, 42, "pkg.Fn".data, 3⟩)) = .ok q
      ∧ q.file = "main.go".data ∧ q.line = 42
      ∧ (Function (some ⟨"main.go".data, 42, "pkg.Fn".data, 3⟩) ≠ [] →
          Package (some ⟨"main.go".data, 42, "pkg.Fn".data, 3⟩) ≠ [] →
          q.fn = Package (some ⟨"main.go".data, 42, "pkg.Fn".data, 3⟩)
            ++ '.' :: Function (some ⟨"main.go".data, 42, "pkg.Fn".data, 3⟩))
      ∧ (Package (some ⟨"main.go".data, 42, "pkg.Fn".data, 3⟩) = [] →
          q.fn = Function (some ⟨"main.go".data, 42, "pkg.Fn".data, 3⟩))
      ∧ (Function (some ⟨"main.go".data, 42, "pkg.Fn".data, 3⟩) = [] → q.fn = []) :=
  marshal_roundtrip ⟨"main.go".data, 42, "pkg.Fn".data, 3⟩ _ (by decide) (by decide) rfl

/-- C9: `Equal` is true exactly when both sides are present and agree on
`file`, `line` and the full qualified name, whatever the cached
`dotIdx` and whatever the concrete type of the argument; it is reflexive
and symmetric on present records, any single differing field makes it
false, and a nil value (untyped or typed) equals nothing. -/
theorem equal_spec :
    (∀ ci oc : CallerInfo,
        Equal (some ci) (some (.info (some oc))) = true ↔
          (ci.file = oc.file ∧ ci.line = oc.line ∧ ci.fn = oc.fn))
    ∧ (∀ (ci : CallerInfo) (f : GoStr) (l : Int) (g : GoStr),
        Equal (some ci) (some (.other f l g)) = true ↔
          (ci.file = f ∧ (ci.line : Int) = l ∧ ci.fn = g))
    ∧ (∀ x : Option CallerVal, Equal none x = false)
    ∧ (∀ c : Option CallerInfo, Equal c none = false)
    ∧ (∀ ci : CallerInfo, Equal (some ci) (some (.info none)) = false)
    ∧ (∀ ci : CallerInfo, Equal (some ci) (some (.info (some ci))) = true)
    ∧ (∀ ci oc : CallerInfo,
        Equal (some ci) (some (.info (some oc)))
          = Equal (some oc) (some (.info (some ci))))
    ∧ (∀ ci oc : CallerInfo,
        ci.file ≠ oc.file ∨ ci.line ≠ oc.line ∨ ci.fn ≠ oc.fn →
          Equal (some ci) (some (.info (some oc))) = false) := by
  refine ⟨?_, ?_, ?_, ?_, ?_, ?_, ?_, ?_⟩
  · intro ci oc
    simp [Equal, and_assoc]
  · intro ci f l g
    simp [Equal, and_assoc]
  · intro x
    cases x with
    | none => rfl
    | some v =>
      cases v with
      | info c => cases c <;> rfl
      | other f l g => rfl
  · intro c
    cases c <;> rfl
  · intro ci
    rfl
  · intro ci
    simp [Equal]
  · intro ci oc
    apply Bool.eq_iff_iff.mpr
    simp only [Equal, Bool.and_eq_true, decide_eq_true_eq]
    constructor
    · rintro ⟨⟨h1, h2⟩, h3⟩
      exact ⟨⟨h1.symm, h2.symm⟩, h3.symm⟩
    · rintro ⟨⟨h1, h2⟩, h3⟩
      exact ⟨⟨h1.symm, h2.symm⟩, h3.symm⟩
  · intro ci oc h
    rcases h with h | h | h <;> simp [Equal, h]

/-- Witness for C9: two records that differ only in `dotIdx` are equal,
and changing the line makes them unequal. -/
theorem equal_spec_witness :
    Equal (some ⟨"f.go".data, 1, "p.F".data, 1⟩)
        (some (.info (some ⟨"f.go".data, 1, "p.F".data, -1⟩))) = true
    ∧ Equal (some ⟨"f.go".data, 1, "p.F".data, 1⟩)
        (some (.info (some ⟨"f.go".data, 2, "p.F".data, 1⟩))) = false :=
  ⟨(equal_spec.1 _ _).mpr ⟨rfl, rfl, rfl⟩,
   equal_spec.2.2.2.2.2.2.2 ⟨"f.go".data, 1, "p.F".data, 1⟩
     ⟨"f.go".data, 2, "p.F".data, 1⟩ (Or.inr (Or.inl (by decide)))⟩

/-- C10: every read-only accessor is total on the nil receiver and
returns the neutral value: `Valid` is false, the string accessors return
the empty string, `Line` returns 0, `LogValue` returns the empty
`slog.Value`, and `MarshalJSON` returns the JSON literal `null` (the Go
method also returns a nil error there, and encoding cannot fail). -/
theorem nil_receiver_accessors_total :
    Valid none = false ∧ File none = [] ∧ Line none = 0 ∧ Location none = []
    ∧ ShortLocation none = [] ∧ Function none = [] ∧ FullFunction none = []
    ∧ Package none = [] ∧ PackageName none = [] ∧ String none = []
    ∧ LogValue none = SlogValue.empty ∧ MarshalJSON none = JsonValue.null :=
  ⟨rfl, rfl, rfl, rfl, rfl, rfl, rfl, rfl, rfl, rfl, rfl, rfl⟩

end GoCaller
